import Mathlib

/-!
Shallow embedding of the celestia-jukebox full node core: the queue state
machine (`state.rs`), link validation (`tx.rs`), the transaction codec and
block processing loop (`fullnode.rs`), and the submission handler
(`webserver.rs`).  Machine time (`SystemTime`) and spans (`Duration`) are
modelled as `Nat` seconds; the clock and the network duration lookup are
passed in as parameters.
-/

namespace Jukebox

/-- A YouTube link as stored by the program: a wrapped plain string.
`YoutubeLink` has a derived serde `Deserialize`, so any string can be
wrapped without validation; validation happens only in `YoutubeLink.new`. -/
structure YoutubeLink where
  val : String
  deriving DecidableEq

/-- Rust `is_valid_video_id` char class: ASCII alphanumeric, underscore or
hyphen (Lean `Char.isAlphanum` is ASCII-only, as is Rust
`is_ascii_alphanumeric`). -/
def isVideoIdChar (c : Char) : Bool :=
  c.isAlphanum || c == '_' || c == '-'

/-- Rust `is_valid_video_id`: exactly 11 chars, all from the id char class.
(The Rust check counts bytes; every candidate id comes from the ASCII char
class, where bytes and chars coincide.) -/
def is_valid_video_id (id : String) : Bool :=
  id.length == 11 && id.toList.all isVideoIdChar

/-- The regex piece `(?:https?://)?`: greedily strip an optional scheme.
(If stripping the scheme made the rest fail, the regex would backtrack to
the empty alternative, which then fails on the first literal char, so
greedy stripping is equivalent.) -/
def stripScheme (s : List Char) : List Char :=
  if "https://".toList.isPrefixOf s then s.drop 8
  else if "http://".toList.isPrefixOf s then s.drop 7
  else s

/-- The regex piece `(?:www\.)?`. -/
def stripWww (s : List Char) : List Char :=
  if "www.".toList.isPrefixOf s then s.drop 4 else s

/-- The regex piece `([a-zA-Z0-9_-] taken exactly 11 times)` followed by one
of `allowedNext` or end of input (the regex is unanchored after that, so
anything may follow the terminator char).  Returns the captured id. -/
def captureId11 (allowedNext : List Char) (s : List Char) : Option String :=
  let id := s.take 11
  let rest := s.drop 11
  if id.length == 11 && id.all isVideoIdChar &&
      (match rest with
       | [] => true
       | c :: _ => allowedNext.contains c) then
    some (String.mk id)
  else
    none

/-- Regex 1 of `extract_video_id`: youtu.be URLs, anchored at the start. -/
def matchYoutuBe (s : List Char) : Option String :=
  let t := stripWww (stripScheme s)
  if "youtu.be/".toList.isPrefixOf t then
    captureId11 ['?', '&', '/'] (t.drop 9)
  else none

/-- Regex 2 of `extract_video_id`: youtube.com/watch URLs; the terminator
set is only `&` or end of input. -/
def matchWatch (s : List Char) : Option String :=
  let t := stripWww (stripScheme s)
  if "youtube.com/watch?v=".toList.isPrefixOf t then
    captureId11 ['&'] (t.drop 20)
  else none

/-- Regex 3 of `extract_video_id`: embed URLs. -/
def matchEmbed (s : List Char) : Option String :=
  let t := stripWww (stripScheme s)
  if "youtube.com/embed/".toList.isPrefixOf t then
    captureId11 ['?', '&', '/'] (t.drop 18)
  else none

/-- Regex 4 of `extract_video_id`: a bare 11-char video id, anchored at
both ends. -/
def matchBareId (s : List Char) : Option String :=
  if s.length == 11 && s.all isVideoIdChar then some (String.mk s) else none

/-- Rust `extract_video_id`: try each URL form in order; a captured id is
re-checked with `is_valid_video_id`, and on failure the loop continues with
the next form. -/
def extract_video_id (url : String) : Except String String :=
  let s := url.toList
  let cands := [matchYoutuBe s, matchWatch s, matchEmbed s, matchBareId s]
  match cands.findSome? (fun c =>
      c.bind fun id => if is_valid_video_id id then some id else none) with
  | some id => .ok id
  | none => .error ("Invalid YouTube URL or video ID: " ++ url)

/-- Rust `str::trim` at the char level.  (The source trims Unicode
whitespace; `Char.isWhitespace` covers the ASCII subset, which is all that
any input considered here contains.) -/
def trimChars (s : List Char) : List Char :=
  (((s.dropWhile Char.isWhitespace).reverse).dropWhile Char.isWhitespace).reverse

/-- The canonical watch URL built by `YoutubeLink::new`. -/
def canonicalUrl (id : String) : String :=
  "https://www.youtube.com/watch?v=" ++ id

/-- Rust `YoutubeLink::new`: trim, remove backslashes, extract the video id
and store the canonical watch URL. -/
def YoutubeLink.new (url : String) : Except String YoutubeLink :=
  let cleaned := String.mk ((trimChars url.toList).filter (fun c => c != '\\'))
  (extract_video_id cleaned).map fun id => ⟨canonicalUrl id⟩

/-- Rust `enum Transaction` (tx.rs): a single variant today. -/
inductive Transaction where
  | AddToQueue (url : YoutubeLink)
  deriving DecidableEq

/-- Rust `QueuedSong`: start time and duration in seconds. -/
structure QueuedSong where
  start_time : Nat
  duration : Nat
  link : YoutubeLink
  deriving DecidableEq

/-- Rust `State`: history and queue; `VecDeque` is modelled as a list with
its front at the head, `push_back` as appending on the right. -/
structure State where
  history : List QueuedSong
  queue : List QueuedSong
  deriving DecidableEq

/-- Rust `State::new`. -/
def State.new : State := ⟨[], []⟩

/-- The loop of `State::cleanup_queue`, with the clock fixed at `now` (the
source re-reads the clock each iteration; a fixed reading is one admissible
execution).  `none` models the panic of
`current_time.duration_since(song.start_time).unwrap()` when the examined
front entry has `start_time` later than `now`. -/
def cleanupGo (now : Nat) :
    List QueuedSong → List QueuedSong → Option (List QueuedSong × List QueuedSong)
  | [], hist => some ([], hist)
  | song :: rest, hist =>
    if now < song.start_time then none
    else if song.duration ≤ now - song.start_time then
      cleanupGo now rest (hist ++ [song])
    else
      some (song :: rest, hist)

/-- Rust `State::cleanup_queue` at clock reading `now`; `none` models the
`unwrap` panic. -/
def cleanup_queue (now : Nat) (s : State) : Option State :=
  (cleanupGo now s.queue s.history).map fun qh => { history := qh.2, queue := qh.1 }

/-- Rust `State::validate_tx`: re-run `YoutubeLink::new` on the stored
string and fail when it does not validate. -/
def validate_tx (tx : Transaction) : Except String Unit :=
  match tx with
  | .AddToQueue url =>
    match YoutubeLink.new url.val with
    | .ok _ => .ok ()
    | .error _ => .error "invalid tx: youtube link failed validation"

/-- Rust `State::process_tx` at clock reading `now`, with the network call
`url.get_video_duration()` abstracted as `lookup` (`none` = lookup error).
The new start time is the end of the current tail, or `now` when the queue
is empty; it is computed before the duration lookup, and nothing is mutated
unless every fallible step succeeds. -/
def process_tx (now : Nat) (lookup : YoutubeLink → Option Nat)
    (s : State) (tx : Transaction) : Except String State :=
  match validate_tx tx with
  | .error e => .error e
  | .ok _ =>
    let new_start_time :=
      ((s.queue.getLast?).map fun song => song.start_time + song.duration).getD now
    match tx with
    | .AddToQueue url =>
      match lookup url with
      | none => .error "could not resolve video duration"
      | some duration =>
        .ok { s with
              queue := s.queue ++
                [{ start_time := new_start_time, duration := duration, link := url }] }

/-- Rust `struct Batch(Vec<Transaction>)` (fullnode.rs). -/
structure Batch where
  txs : List Transaction
  deriving DecidableEq

/-- The JSON values exchanged with serde_json, at the level of the parsed
tree (`serde_json::to_vec` / `from_slice` are the bijection between this
tree and its byte rendering). -/
inductive Json where
  | str (s : String)
  | num (n : Int)
  | bool (b : Bool)
  | null
  | arr (elems : List Json)
  | obj (fields : List (String × Json))

/-- serde serialization of a `Transaction`: externally tagged enum, struct
variant with one field, newtype string inside. -/
def encodeTx : Transaction → Json
  | .AddToQueue url => .obj [("AddToQueue", .obj [("url", .str url.val)])]

/-- serde serialization of a `Batch`: a JSON array of transactions
(`serde_json::to_vec(&batch)` in `post_pending_batch`). -/
def encodeBatch (b : Batch) : Json :=
  .arr (b.txs.map encodeTx)

/-- First occurrence of field `k` in a JSON object. -/
def getField (fields : List (String × Json)) (k : String) : Option Json :=
  (fields.find? fun f => f.1 == k).map (·.2)

/-- serde deserialization of a `Transaction`: a map with exactly the single
variant key, whose content is an object holding a string field `url`
(extra fields inside the variant content are ignored, serde's default). -/
def decodeTx : Json → Option Transaction
  | .obj [(k, v)] =>
    if k == "AddToQueue" then
      match v with
      | .obj fields =>
        match getField fields "url" with
        | some (.str s) => some (.AddToQueue ⟨s⟩)
        | _ => none
      | _ => none
    else none
  | _ => none

/-- serde deserialization of a `Vec<Transaction>`: every element must
decode. -/
def decodeTxList : List Json → Option (List Transaction)
  | [] => some []
  | j :: rest =>
    match decodeTx j, decodeTxList rest with
    | some t, some ts => some (t :: ts)
    | _, _ => none

/-- serde deserialization of a `Batch`: a JSON array of transactions. -/
def decodeBatch : Json → Option Batch
  | .arr elems => (decodeTxList elems).map Batch.mk
  | _ => none

/-- Rust `impl TryFrom<&Blob> for Batch`: parse the payload as a `Batch`;
only on failure parse it as a single legacy `Transaction` and wrap it as a
one-element batch; when both fail, report a malformed payload. -/
def Batch.try_from (j : Json) : Except String Batch :=
  match decodeBatch j with
  | some b => .ok b
  | none =>
    match decodeTx j with
    | some t => .ok ⟨[t]⟩
    | none => .error "Failed to decode blob into Transaction"

/-- The transaction loop of `FullNode::process_l1_block`: each transaction
goes through `process_tx`; on error the state is kept and the loop
continues with the next transaction. -/
def applyTxs (now : Nat) (lookup : YoutubeLink → Option Nat)
    (s : State) (txs : List Transaction) : State :=
  txs.foldl (fun st tx =>
    match process_tx now lookup st tx with
    | .ok s2 => s2
    | .error _ => st) s

/-- Rust `FullNode::process_l1_block`: decode every blob of the height — a
decode failure is logged and contributes no transactions — then apply the
concatenated transactions in list order. -/
def process_l1_block (now : Nat) (lookup : YoutubeLink → Option Nat)
    (s : State) (blobs : List Json) : State :=
  applyTxs now lookup s
    (blobs.flatMap fun b =>
      match Batch.try_from b with
      | .ok batch => batch.txs
      | .error _ => [])

/-- Rust `AddSongRequest` (webserver.rs). -/
structure AddSongRequest where
  url : YoutubeLink
  deriving DecidableEq

/-- serde deserialization of `AddSongRequest`: a JSON object with a string
field `url` wrapped into a `YoutubeLink` with no validation at all
(`YoutubeLink` only has the derived `Deserialize`). -/
def decodeAddSongRequest : Json → Option AddSongRequest
  | .obj fields =>
    match getField fields "url" with
    | some (.str s) => some ⟨⟨s⟩⟩
    | _ => none
  | _ => none

/-- Rust `FullNode::queue_transaction`: push onto the pending transaction
list; always returns Ok. -/
def queue_transaction (pending : List Transaction) (tx : Transaction) :
    Except String (List Transaction) :=
  .ok (pending ++ [tx])

/-- Rust webserver `send_tx` handler: wrap the request url into an
`AddToQueue` transaction and queue it; an error would surface as status
500 with the message.  Returns the response and the new pending list. -/
def send_tx (pending : List Transaction) (req : AddSongRequest) :
    Except (Nat × String) Unit × List Transaction :=
  match queue_transaction pending (.AddToQueue req.url) with
  | .ok pending2 => (.ok (), pending2)
  | .error e => (.error (500, e), pending)

/-- States reachable from the fresh state through the two `State`
mutators: an apply (`process_tx`, with arbitrary clock reading and
duration lookup) and a cleanup sweep (`cleanup_queue`, with arbitrary
clock reading, completing without panicking).  A failed apply returns the
state unchanged, so it adds no reachable states. -/
inductive Reachable : State → Prop where
  | init : Reachable State.new
  | tx {s s2 : State} (now : Nat) (lookup : YoutubeLink → Option Nat)
      (t : Transaction) : Reachable s → process_tx now lookup s t = .ok s2 →
      Reachable s2
  | evict {s s2 : State} (now : Nat) : Reachable s →
      cleanup_queue now s = some s2 → Reachable s2

/-- Adjacent queue entries abut exactly: each later entry starts the
moment the previous one ends. -/
def Abuts (q : List QueuedSong) : Prop :=
  List.Chain' (fun a b => a.start_time + a.duration = b.start_time) q

/-- An entry whose playback window has fully elapsed at `now`. -/
def elapsed (now : Nat) (e : QueuedSong) : Bool :=
  decide (e.start_time + e.duration ≤ now)

/-- A concrete canonical link, used for the concrete evaluations below; it
passes `validate_tx`. -/
def testLink : YoutubeLink := ⟨"https://www.youtube.com/watch?v=dQw4w9WgXcQ"⟩

/-! Helper lemmas about the embedded operations. -/

/-- A successful `process_tx` appends exactly one entry whose start time is
the end of the previous tail (or `now` on an empty queue) and leaves
history untouched. -/
theorem process_tx_ok {now : Nat} {lookup : YoutubeLink → Option Nat}
    {s : State} {t : Transaction} {s2 : State}
    (h : process_tx now lookup s t = .ok s2) :
    ∃ url d, t = .AddToQueue url ∧ lookup url = some d ∧
      s2.history = s.history ∧
      s2.queue = s.queue ++
        [{ start_time := ((s.queue.getLast?).map
             fun song => song.start_time + song.duration).getD now,
           duration := d, link := url }] := by
  cases t with
  | AddToQueue url =>
    cases hv : validate_tx (.AddToQueue url) with
    | error e => simp [process_tx, hv] at h
    | ok u =>
      cases hl : lookup url with
      | none => simp [process_tx, hv, hl] at h
      | some d =>
        simp only [process_tx, hv, hl, Except.ok.injEq] at h
        exact ⟨url, d, rfl, hl, by rw [← h], by rw [← h]⟩

/-- Appending the entry built by `process_tx` preserves the exact-abutment
invariant of the queue. -/
theorem abuts_append {q : List QueuedSong} (h : Abuts q) (d : Nat)
    (url : YoutubeLink) (now : Nat) :
    Abuts (q ++
      [{ start_time := ((q.getLast?).map
           fun song => song.start_time + song.duration).getD now,
         duration := d, link := url }]) := by
  unfold Abuts at h ⊢
  rw [List.chain'_append]
  refine ⟨h, List.chain'_singleton _, ?_⟩
  intro x hx y hy
  rw [Option.mem_def] at hx
  simp only [List.head?_cons, Option.mem_def, Option.some.injEq] at hy
  subst hy
  simp [hx]

/-- The queue left behind by the cleanup loop is a suffix of the original
queue. -/
theorem cleanupGo_suffix {now : Nat} {q : List QueuedSong} :
    ∀ {hist q2 hist2 : List QueuedSong},
    cleanupGo now q hist = some (q2, hist2) → q2 <:+ q := by
  induction q with
  | nil =>
    intro hist q2 hist2 h
    simp only [cleanupGo, Option.some.injEq, Prod.mk.injEq] at h
    rw [← h.1]
  | cons e rest ih =>
    intro hist q2 hist2 h
    simp only [cleanupGo] at h
    split at h
    · exact absurd h (by simp)
    · split at h
      · exact (ih h).trans (List.suffix_cons e rest)
      · simp only [Option.some.injEq, Prod.mk.injEq] at h
        rw [← h.1]

/-- A completed cleanup sweep leaves a suffix of the original queue. -/
theorem cleanup_queue_some {now : Nat} {s s2 : State}
    (h : cleanup_queue now s = some s2) : s2.queue <:+ s.queue := by
  unfold cleanup_queue at h
  cases hgo : cleanupGo now s.queue s.history with
  | none => rw [hgo] at h; simp at h
  | some qh =>
    rw [hgo] at h
    simp only [Option.map_some', Option.some.injEq] at h
    rw [← h]
    exact cleanupGo_suffix hgo

/-- Every reachable state has an exactly abutting queue. -/
theorem reachable_abuts {s : State} (h : Reachable s) : Abuts s.queue := by
  induction h with
  | init => exact List.chain'_nil
  | tx now lookup t _ heq ih =>
    obtain ⟨url, d, -, -, -, hq⟩ := process_tx_ok heq
    rw [hq]
    exact abuts_append ih d url now
  | evict now _ heq ih =>
    exact List.Chain'.suffix ih (cleanup_queue_some heq)

/-- The cleanup loop evicts exactly the elapsed front entries, provided the
first non-elapsed entry it would examine has not started after `now`. -/
theorem cleanupGo_spec {now : Nat} {q : List QueuedSong} :
    ∀ {hist : List QueuedSong},
    (∀ e, (q.dropWhile (elapsed now)).head? = some e → e.start_time ≤ now) →
    cleanupGo now q hist =
      some (q.dropWhile (elapsed now), hist ++ q.takeWhile (elapsed now)) := by
  induction q with
  | nil => intro hist _; simp [cleanupGo]
  | cons e rest ih =>
    intro hist hsafe
    by_cases he : elapsed now e = true
    · have hle : e.start_time + e.duration ≤ now := of_decide_eq_true he
      have hgo : cleanupGo now (e :: rest) hist = cleanupGo now rest (hist ++ [e]) := by
        simp only [cleanupGo]
        rw [if_neg (by omega), if_pos (by omega)]
      have hsafe2 : ∀ e2, (rest.dropWhile (elapsed now)).head? = some e2 →
          e2.start_time ≤ now := by
        intro e2 he2
        exact hsafe e2 (by rwa [List.dropWhile_cons_of_pos he])
      rw [hgo, ih hsafe2, List.dropWhile_cons_of_pos he,
        List.takeWhile_cons_of_pos he]
      simp
    · have hne : ¬ e.start_time + e.duration ≤ now := by
        simpa [elapsed] using he
      have hfe : e.start_time ≤ now := by
        refine hsafe e ?_
        rw [List.dropWhile_cons_of_neg he]
        rfl
      simp only [cleanupGo]
      rw [if_neg (by omega), if_neg (by omega),
        List.dropWhile_cons_of_neg he, List.takeWhile_cons_of_neg he]
      simp

/-- The cleanup loop cannot reach the panicking branch when the queue abuts
exactly and its front entry has not started after `now`. -/
theorem cleanupGo_isSome {now : Nat} {q : List QueuedSong} :
    ∀ {hist : List QueuedSong}, Abuts q →
    (∀ e, q.head? = some e → e.start_time ≤ now) →
    (cleanupGo now q hist).isSome := by
  induction q with
  | nil => intro hist _ _; simp [cleanupGo]
  | cons e rest ih =>
    intro hist ha hfront
    have hfe : e.start_time ≤ now := hfront e rfl
    simp only [cleanupGo]
    rw [if_neg (by omega)]
    by_cases hcond : e.duration ≤ now - e.start_time
    · rw [if_pos hcond]
      refine ih ha.tail ?_
      intro e2 he2
      cases rest with
      | nil => simp at he2
      | cons e3 t =>
        simp only [List.head?_cons, Option.some.injEq] at he2
        have hr : e.start_time + e.duration = e3.start_time :=
          (List.chain'_cons.mp ha).1
        rw [← he2]
        omega
    · rw [if_neg hcond]
      simp

/-! Claim theorems. -/

/-- Claim C1, counterexample: the claim says the new entry starts at
`max(now, end of tail)`.  At clock reading 10, with a queue whose tail ends
at `0 + 1 = 1`, a successful apply appends an entry starting at 1, not at
`max 10 1 = 10`: `process_tx` takes the tail end unconditionally, it never
compares it with the clock. -/
theorem claim_c1_counterexample :
    process_tx 10 (fun _ => some 5) ⟨[], [⟨0, 1, testLink⟩]⟩
        (.AddToQueue testLink) =
      .ok ⟨[], [⟨0, 1, testLink⟩, ⟨1, 5, testLink⟩]⟩ ∧
    (1 : Nat) ≠ max 10 (0 + 1) := by
  exact ⟨rfl, by decide⟩

/-- Claim C1, amended: for every apply whose transaction passes validation
and whose duration lookup succeeds, the start time of the newly appended
queue entry equals the end (`start_time + duration`) of the current queue
tail — even when that end lies before the current time — and equals the
current time exactly when the queue is empty. -/
theorem claim_c1_start_time {now : Nat} {lookup : YoutubeLink → Option Nat}
    {s : State} {url : YoutubeLink} {d : Nat}
    (hv : (validate_tx (.AddToQueue url)).isOk = true)
    (hl : lookup url = some d) :
    ∃ e : QueuedSong,
      process_tx now lookup s (.AddToQueue url) =
        .ok { s with queue := s.queue ++ [e] } ∧
      e.duration = d ∧ e.link = url ∧
      (s.queue = [] → e.start_time = now) ∧
      (∀ tail, s.queue.getLast? = some tail →
        e.start_time = tail.start_time + tail.duration) := by
  cases hvv : validate_tx (.AddToQueue url) with
  | error e => rw [hvv] at hv; simp [Except.isOk, Except.toBool] at hv
  | ok u =>
    refine ⟨⟨((s.queue.getLast?).map
        fun song => song.start_time + song.duration).getD now, d, url⟩,
      ?_, rfl, rfl, ?_, ?_⟩
    · simp [process_tx, hvv, hl]
    · intro hq; simp [hq]
    · intro tail ht; simp [ht]

/-- Claim C1, witness for the amended statement at concrete inputs. -/
theorem claim_c1_witness :
    ∃ e : QueuedSong,
      process_tx 7 (fun _ => some 180) State.new (.AddToQueue testLink) =
        .ok { State.new with queue := State.new.queue ++ [e] } ∧
      e.duration = 180 ∧ e.link = testLink ∧
      (State.new.queue = [] → e.start_time = 7) ∧
      (∀ tail, State.new.queue.getLast? = some tail →
        e.start_time = tail.start_time + tail.duration) :=
  claim_c1_start_time rfl rfl

/-- Claim C2: in every reachable state the queue is ordered by
non-decreasing start time, and adjacent entries have non-overlapping
playback windows (`start + duration` of one never exceeds the start of the
next).  Both follow from the exact-abutment invariant established by
`process_tx` at insertion time and preserved by cleanup. -/
theorem claim_c2_queue_invariant {s : State} (h : Reachable s) :
    List.Chain' (fun a b => a.start_time ≤ b.start_time) s.queue ∧
    List.Chain' (fun a b => a.start_time + a.duration ≤ b.start_time)
      s.queue := by
  have ha := reachable_abuts h
  exact ⟨ha.imp fun a b hab => by omega, ha.imp fun a b hab => by omega⟩

/-- Claim C2, witness: the invariant at the concrete reachable state
produced by two applies from the fresh state (durations 180 and 200). -/
theorem claim_c2_witness :
    List.Chain' (fun a b => a.start_time ≤ b.start_time)
      ([⟨0, 180, testLink⟩, ⟨180, 200, testLink⟩] : List QueuedSong) ∧
    List.Chain' (fun a b => a.start_time + a.duration ≤ b.start_time)
      ([⟨0, 180, testLink⟩, ⟨180, 200, testLink⟩] : List QueuedSong) :=
  claim_c2_queue_invariant
    (Reachable.tx 0 (fun _ => some 200) (.AddToQueue testLink)
      (Reachable.tx 0 (fun _ => some 180) (.AddToQueue testLink)
        Reachable.init rfl) rfl)

/-- Claim C3: the apply pipeline keeps no transaction identity and no dedup
set, so re-delivering the very same logical transaction (a height replayed
by genesis sync and re-delivered by the live subscription) appends a second
`QueuedSong`.  Evaluating the code at the failing input: processing the
same one-transaction blob twice yields a queue with two entries. -/
theorem claim_c3_redelivery_duplicates :
    (process_l1_block 0 (fun _ => some 180)
        (process_l1_block 0 (fun _ => some 180) State.new
          [encodeTx (.AddToQueue testLink)])
        [encodeTx (.AddToQueue testLink)]).queue =
      [⟨0, 180, testLink⟩, ⟨180, 180, testLink⟩] := rfl

/-- Claim C4, counterexample: the claim says the link of a `POST /submit`
body is validated before enqueueing and that an invalid link yields an
error with nothing enqueued.  The body `url` field only passes through the
derived deserializer of `YoutubeLink`, which wraps any string: the string
"nonsense" fails `YoutubeLink::new`, yet the handler enqueues it into the
pending outbox and answers success. -/
theorem claim_c4_counterexample :
    (YoutubeLink.new "nonsense").isOk = false ∧
    decodeAddSongRequest (.obj [("url", .str "nonsense")]) =
      some ⟨⟨"nonsense"⟩⟩ ∧
    send_tx [] ⟨⟨"nonsense"⟩⟩ = (.ok (), [.AddToQueue ⟨"nonsense"⟩]) :=
  ⟨rfl, rfl, rfl⟩

/-- Claim C4, amended: for every `POST /submit` body that deserializes (any
JSON object with a string `url` field), the handler performs no
YouTube-link validation or canonicalization: it wraps the raw string into
an `AddToQueue` transaction, appends it to the pending outbox, and returns
success.  Link validation happens only later, when the transaction is
applied through `process_tx`/`validate_tx`. -/
theorem claim_c4_submit {pending : List Transaction} {j : Json}
    {req : AddSongRequest} (_hdec : decodeAddSongRequest j = some req) :
    send_tx pending req = (.ok (), pending ++ [.AddToQueue req.url]) := rfl

/-- Claim C4, witness for the amended statement: the unvalidated string
"nonsense" is accepted and enqueued. -/
theorem claim_c4_witness :
    send_tx [] ⟨⟨"nonsense"⟩⟩ = (.ok (), [] ++ [.AddToQueue ⟨"nonsense"⟩]) :=
  @claim_c4_submit [] (.obj [("url", .str "nonsense")]) ⟨⟨"nonsense"⟩⟩ rfl

/-- Claim C5, counterexample: the claim quantifies over every queue sorted
by start time and every `now`.  On the sorted queue
`[(start 0, dur 3), (start 100, dur 5)]` at `now = 3` — which also
satisfies the claim's particular hypotheses `now ≥ t0+d0` and
`now < t1+d1` — the claim prescribes moving exactly the first entry to
history; the code instead evicts the first entry, then examines the second
entry, whose start time 100 lies after `now`, and panics in
`duration_since(start_time).unwrap()` (modelled as `none`). -/
theorem claim_c5_counterexample :
    cleanup_queue 3 ⟨[], [⟨0, 3, testLink⟩, ⟨100, 5, testLink⟩]⟩ = none ∧
    List.Chain' (fun a b => a.start_time ≤ b.start_time)
      ([⟨0, 3, testLink⟩, ⟨100, 5, testLink⟩] : List QueuedSong) ∧
    0 + 3 ≤ 3 ∧ 3 < 100 + 5 := by
  refine ⟨rfl, ?_, by omega, by omega⟩
  exact List.chain'_pair.mpr (by decide)

/-- Claim C5, amended: for every queue sorted by start time and every
`now`, provided the first entry not satisfying `start + duration ≤ now`
(when the scan reaches one) has `start_time ≤ now`, `cleanup_queue now`
moves exactly the maximal front run of elapsed entries from the front of
the queue to the back of history, preserving their relative order, and
leaves the remaining entries in their original order.  Without that
proviso the loop panics in `duration_since(...).unwrap()` upon examining an
entry that starts after `now`. -/
theorem claim_c5_evict {now : Nat} {hist q : List QueuedSong}
    (_hsorted : List.Chain' (fun a b => a.start_time ≤ b.start_time) q)
    (hsafe : ∀ e, (q.dropWhile (elapsed now)).head? = some e →
      e.start_time ≤ now) :
    cleanup_queue now ⟨hist, q⟩ =
      some ⟨hist ++ q.takeWhile (elapsed now), q.dropWhile (elapsed now)⟩ := by
  unfold cleanup_queue
  rw [cleanupGo_spec hsafe]
  rfl

/-- Claim C5, witness for the amended statement: the claim's particular
scenario with `(t0,d0) = (0,3)`, `(t1,d1) = (10,5)`, `(t2,d2) = (20,2)` and
`now = 12` (`now ≥ t0+d0`, `now < t1+d1`): exactly the first entry moves to
history, the other two stay in order. -/
theorem claim_c5_witness :
    cleanup_queue 12
        ⟨[], [⟨0, 3, testLink⟩, ⟨10, 5, testLink⟩, ⟨20, 2, testLink⟩]⟩ =
      some ⟨[⟨0, 3, testLink⟩], [⟨10, 5, testLink⟩, ⟨20, 2, testLink⟩]⟩ := by
  have h := @claim_c5_evict 12 []
    [⟨0, 3, testLink⟩, ⟨10, 5, testLink⟩, ⟨20, 2, testLink⟩]
    (by refine List.chain'_cons.mpr ⟨by decide, ?_⟩
        exact List.chain'_pair.mpr (by decide))
    (by intro e he
        rw [show ([⟨0, 3, testLink⟩, ⟨10, 5, testLink⟩,
            (⟨20, 2, testLink⟩ : QueuedSong)].dropWhile (elapsed 12)) =
          [⟨10, 5, testLink⟩, ⟨20, 2, testLink⟩] from rfl] at he
        simp only [List.head?_cons, Option.some.injEq] at he
        rw [← he]
        decide)
  exact h

/-- Claim C6: for every state and every `AddToQueue` transaction whose
validation or duration lookup fails, `process_tx` returns an error without
touching the state (in this embedding the only mutation is the final
append, performed after both fallible steps succeed, so the erroring call
builds no new state), and the block loop of `process_l1_block` continues
with the remaining transactions applied to the unchanged state. -/
theorem claim_c6_failure_isolated {now : Nat}
    {lookup : YoutubeLink → Option Nat} {s : State} {url : YoutubeLink}
    (hfail : (validate_tx (.AddToQueue url)).isOk = false ∨
      lookup url = none) :
    (∃ e, process_tx now lookup s (.AddToQueue url) = .error e) ∧
    ∀ rest, applyTxs now lookup s (.AddToQueue url :: rest) =
      applyTxs now lookup s rest := by
  have herr : ∃ e, process_tx now lookup s (.AddToQueue url) = .error e := by
    cases hv : validate_tx (.AddToQueue url) with
    | error e => exact ⟨e, by simp [process_tx, hv]⟩
    | ok u =>
      cases hfail with
      | inl h => rw [hv] at h; simp [Except.isOk, Except.toBool] at h
      | inr h =>
        exact ⟨"could not resolve video duration",
          by simp [process_tx, hv, h]⟩
  refine ⟨herr, fun rest => ?_⟩
  obtain ⟨e, he⟩ := herr
  simp [applyTxs, he]

/-- Claim C6, witness: a failing lookup for a validated link on the
one-song state from the spec scenario — the queue stays `[(0, 180)]` and
the rest of the batch is still processed. -/
theorem claim_c6_witness :
    (∃ e, process_tx 0 (fun _ => none) ⟨[], [⟨0, 180, testLink⟩]⟩
      (.AddToQueue testLink) = .error e) ∧
    ∀ rest, applyTxs 0 (fun _ => none) ⟨[], [⟨0, 180, testLink⟩]⟩
        (.AddToQueue testLink :: rest) =
      applyTxs 0 (fun _ => none) ⟨[], [⟨0, 180, testLink⟩]⟩ rest :=
  claim_c6_failure_isolated (Or.inr rfl)

/-- Decoding a serialized transaction recovers it. -/
theorem decodeTx_encodeTx (t : Transaction) : decodeTx (encodeTx t) = some t := by
  cases t with
  | AddToQueue url => cases url with
    | mk v => rfl

/-- Decoding a serialized transaction list recovers it. -/
theorem decodeTxList_map_encodeTx (ts : List Transaction) :
    decodeTxList (ts.map encodeTx) = some ts := by
  induction ts with
  | nil => rfl
  | cons t rest ih =>
    simp [decodeTxList, decodeTx_encodeTx, ih]

/-- Claim C7: for every batch, decoding the payload produced by encoding it
yields the batch back, with the same transactions in the same order. -/
theorem claim_c7_roundtrip (b : Batch) :
    Batch.try_from (encodeBatch b) = .ok b := by
  cases b with
  | mk ts =>
    simp [encodeBatch, Batch.try_from, decodeBatch, decodeTxList_map_encodeTx]

/-- Claim C8: decoding the legacy single-transaction encoding of any
transaction yields a one-element batch containing it — the batch parse of a
JSON object fails, and the decoder then parses the object as a single
legacy transaction and wraps it. -/
theorem claim_c8_legacy (t : Transaction) :
    Batch.try_from (encodeTx t) = .ok ⟨[t]⟩ := by
  cases t with
  | AddToQueue url => cases url with
    | mk v => rfl

/-- Claim C9: a payload that fails to decode contributes no transactions
and does not prevent the sibling payloads of the same height from being
applied in their list order: processing the height with the bad payload
equals processing the height with the bad payload removed. -/
theorem claim_c9_decode_failure_skipped {now : Nat}
    {lookup : YoutubeLink → Option Nat} {s : State}
    (pre post : List Json) {bad : Json} {e : String}
    (hbad : Batch.try_from bad = .error e) :
    process_l1_block now lookup s (pre ++ bad :: post) =
      process_l1_block now lookup s (pre ++ post) := by
  unfold process_l1_block
  congr 1
  simp [hbad]

/-- Claim C9, witness: a malformed payload (a bare string) between two
well-formed single-transaction payloads of the same height is skipped. -/
theorem claim_c9_witness :
    process_l1_block 0 (fun _ => some 180) State.new
        ([encodeTx (.AddToQueue testLink)] ++
          Json.str "garbage" :: [encodeTx (.AddToQueue testLink)]) =
      process_l1_block 0 (fun _ => some 180) State.new
        ([encodeTx (.AddToQueue testLink)] ++
          [encodeTx (.AddToQueue testLink)]) :=
  claim_c9_decode_failure_skipped _ _ rfl

/-- Claim C10: for every reachable state satisfying the queue adjacency
invariant (each non-front entry starts exactly when its predecessor ends)
and every clock reading not earlier than the front entry's start time,
`cleanup_queue` completes without reaching the panicking branch of
`duration_since(...).unwrap()`: every entry the loop examines has started
by `now`. -/
theorem claim_c10_no_panic {s : State} {now : Nat} (_hr : Reachable s)
    (ha : Abuts s.queue)
    (hfront : ∀ e, s.queue.head? = some e → e.start_time ≤ now) :
    (cleanup_queue now s).isSome := by
  unfold cleanup_queue
  cases hgo : cleanupGo now s.queue s.history with
  | none =>
    have := @cleanupGo_isSome now s.queue s.history ha hfront
    rw [hgo] at this
    simp at this
  | some qh => rfl

/-- Claim C10, witness: the reachable one-song state built by a single
apply at clock 5 (duration 180), swept at clock 7 ≥ 5. -/
theorem claim_c10_witness :
    (cleanup_queue 7 ⟨[], [⟨5, 180, testLink⟩]⟩).isSome :=
  claim_c10_no_panic
    (Reachable.tx 5 (fun _ => some 180) (.AddToQueue testLink)
      Reachable.init rfl)
    (List.chain'_singleton _)
    (fun e he => by
      simp only [List.head?_cons, Option.some.injEq] at he
      rw [← he]
      decide)

end Jukebox
